import Mathlib

/-!
Verification development for the review-agent diff/annotation/batching core.

Shallow embedding of:
  * `GitlabService.splitHunk` and `GitlabService.computeHunkWithLineNumbers`
    (gitlab service source, `splitHunk` at lines 215-251, annotation at 257-296);
  * `AiReviewService.splitIntoBatches` and `AiReviewService.mergeReviewResults`
    (src/modules/webhook/ai-review.service.ts);
  * `ConfigService.validate` (src/modules/webhook/webhook.guard.ts);
  * `AiReviewService.normalizeScore` / `parseAIResponse` (score path).

JavaScript strings are modelled as `List Char`; JS `Map` insertion/overwrite
semantics are modelled by `mapSet` on association lists; JS numbers appearing
in score normalization are modelled by `JsNum` (NaN / ±Infinity / finite
rational); machine arithmetic on line numbers is `Nat` (the source only ever
increments nonnegative parsed integers, no overflow is reachable for any
realistic diff and JS numbers are exact on this range).
-/

/-- JS strings, modelled as their character sequences. -/
abbrev Str := List Char

/-- JS `s.split('\n')`: splits on every newline, keeping empty segments;
`''.split('\n') = ['']`. -/
def splitLines : Str → List Str
  | [] => [[]]
  | c :: cs =>
    if c = '\n' then [] :: splitLines cs
    else
      match splitLines cs with
      | l :: ls => (c :: l) :: ls
      | [] => [[c]]

/-- JS `s.startsWith(pre)`. -/
def beginsWith : Str → Str → Bool
  | [], _ => true
  | _ :: _, [] => false
  | p :: ps, c :: cs => p = c && beginsWith ps cs

/-- ASCII digit test, as in the regex class `\d`. -/
def isDigitCh (c : Char) : Bool := '0' ≤ c && c ≤ '9'

/-- `parseInt(digits, 10)` for a nonempty decimal digit string. -/
def digitsToNat (s : Str) : ℕ :=
  s.foldl (fun acc c => 10 * acc + (c.toNat - '0'.toNat)) 0

/-- Consume an expected literal at the head of the input, or fail. -/
def expectLit : Str → Str → Option Str
  | [], s => some s
  | _ :: _, [] => none
  | p :: ps, c :: cs => if p = c then expectLit ps cs else none

/-- Match the regex `/@@ -(\d+),?(\d+)? \+(\d+),?(\d+)? @@/` anchored at the
start of `s`, returning `(parseInt(match[1]), parseInt(match[3]))`.
The regex is deterministic here: `\d+` is greedy and no backtracking case can
succeed where the greedy parse fails (after the greedy digit run the next
character is not a digit, so `,?` and `(\d+)?` have forced matches). -/
def matchHeaderAt (s : Str) : Option (ℕ × ℕ) := do
  let s ← expectLit "@@ -".data s
  let d1 := s.takeWhile isDigitCh
  let s := s.dropWhile isDigitCh
  if d1 = [] then none else
  let s := match s with
           | ',' :: rest => rest
           | _ => s
  let s := s.dropWhile isDigitCh
  let s ← expectLit " +".data s
  let d3 := s.takeWhile isDigitCh
  let s := s.dropWhile isDigitCh
  if d3 = [] then none else
  let s := match s with
           | ',' :: rest => rest
           | _ => s
  let s := s.dropWhile isDigitCh
  let _ ← expectLit " @@".data s
  pure (digitsToNat d1, digitsToNat d3)

/-- JS `line.match(/@@ -(\d+),?(\d+)? \+(\d+),?(\d+)? @@/)`: unanchored search,
first match wins (leftmost). -/
def matchHunkHeader : Str → Option (ℕ × ℕ)
  | [] => none
  | c :: rest =>
    match matchHeaderAt (c :: rest) with
    | some r => some r
    | none => matchHunkHeader rest

/-- The `Hunk` interface of the gitlab service: declared old/new start line
numbers and all lines of the hunk (`hunkLines` includes the `@@` header line
when one was seen). -/
structure Hunk where
  oldStart : ℕ
  newStart : ℕ
  hunkLines : List Str
deriving DecidableEq, Repr

/-- The spec's `bodyLines`: the hunk's lines without the header line. -/
def bodyLines (h : Hunk) : List Str := h.hunkLines.drop 1

/-- Loop body of `splitHunk`'s `lines.forEach`: state is the accumulated
`hunks` list and the mutable `currentHunk`.  On a line starting with `@@`:
first flush a nonempty `currentHunk` and reset it, then, if the header regex
matched, set the fresh hunk's `oldStart`/`newStart`; every line (header or
not) is appended to the current hunk. -/
def splitStep (st : List Hunk × Hunk) (line : Str) : List Hunk × Hunk :=
  if beginsWith "@@".data line then
    let st1 := if st.2.hunkLines = [] then st else (st.1 ++ [st.2], ⟨0, 0, []⟩)
    let cur' : Hunk :=
      match matchHunkHeader line with
      | some p => { st1.2 with oldStart := p.1, newStart := p.2 }
      | none => st1.2
    (st1.1, { cur' with hunkLines := cur'.hunkLines ++ [line] })
  else
    (st.1, { st.2 with hunkLines := st.2.hunkLines ++ [line] })

/-- `splitHunk` on an already-split line list (the body of the source function
after `diff.split('\n')`): run the `forEach` from an empty current hunk, then
flush the final current hunk when it has lines. -/
def splitHunkLines (lines : List Str) : List Hunk :=
  let st := lines.foldl splitStep ([], ⟨0, 0, []⟩)
  st.1 ++ (if st.2.hunkLines = [] then [] else [st.2])

/-- `GitlabService.splitHunk(diff)`. -/
def splitHunk (diff : Str) : List Hunk :=
  splitHunkLines (splitLines diff)

/-- Decimal digits of a natural number, structurally (fuel = the number). -/
def natDigitsAux : ℕ → ℕ → Str
  | 0, _ => []
  | fuel + 1, n =>
    if n < 10 then [Char.ofNat ('0'.toNat + n)]
    else natDigitsAux fuel (n / 10) ++ [Char.ofNat ('0'.toNat + n % 10)]

/-- JS `${n}` for a nonnegative integer `n`. -/
def natToStr (n : ℕ) : Str := natDigitsAux (n + 1) n

/-- JS `Map` keyed by line numbers: an association list in insertion order;
`set` overwrites in place when the key exists, otherwise appends. -/
abbrev LineMap := List (ℕ × Str)

/-- JS `Map.prototype.set`. -/
def mapSet (m : LineMap) (k : ℕ) (v : Str) : LineMap :=
  if (m.lookup k).isSome then m.map (fun p => if p.1 = k then (k, v) else p)
  else m ++ [(k, v)]

/-- The mutable locals of `computeHunkWithLineNumbers` while iterating the
body lines: `temp` (head label / line pairs), `maxHeadLength`, the two lookup
tables and the two line counters. -/
structure AnnotState where
  temp : List (Str × Str)
  maxHeadLength : ℕ
  oldLines : LineMap
  newLines : LineMap
  oldLineNumber : ℕ
  newLineNumber : ℕ
deriving DecidableEq, Repr

/-- Line classification (spec's LineRecord): removed lines are those whose
text starts with `-` (JS `line.startsWith('-')`). -/
def isRemoved (line : Str) : Bool := beginsWith "-".data line

/-- Line classification (spec's LineRecord): added lines are those whose
text starts with `+` (JS `line.startsWith('+')`). -/
def isAdded (line : Str) : Bool := beginsWith "+".data line

/-- One iteration of `hunk.hunkLines.slice(1).forEach` in
`computeHunkWithLineNumbers`: classify the line by its first character,
build the head label, record the line in the table(s), bump the counter(s),
and fold the label length into `maxHeadLength`. -/
def annotStep (s : AnnotState) (line : Str) : AnnotState :=
  if isRemoved line then
    let head := "(".data ++ natToStr s.oldLineNumber ++ ", )".data
    { s with
      temp := s.temp ++ [(head, line)]
      oldLines := mapSet s.oldLines s.oldLineNumber line
      oldLineNumber := s.oldLineNumber + 1
      maxHeadLength := max s.maxHeadLength head.length }
  else if isAdded line then
    let head := "( , ".data ++ natToStr s.newLineNumber ++ ")".data
    { s with
      temp := s.temp ++ [(head, line)]
      newLines := mapSet s.newLines s.newLineNumber line
      newLineNumber := s.newLineNumber + 1
      maxHeadLength := max s.maxHeadLength head.length }
  else
    let head := "(".data ++ natToStr s.oldLineNumber ++ ", ".data
                  ++ natToStr s.newLineNumber ++ ")".data
    { s with
      temp := s.temp ++ [(head, line)]
      oldLines := mapSet s.oldLines s.oldLineNumber line
      newLines := mapSet s.newLines s.newLineNumber line
      oldLineNumber := s.oldLineNumber + 1
      newLineNumber := s.newLineNumber + 1
      maxHeadLength := max s.maxHeadLength head.length }

/-- The body-line walk of `computeHunkWithLineNumbers` on body `body` with
counters initialized from the hunk header's `oldStart`/`newStart`. -/
def annotRun (body : List Str) (o n : ℕ) : AnnotState :=
  body.foldl annotStep ⟨[], 0, [], [], o, n⟩

/-- JS `s.padEnd(n)`: pad with spaces on the right up to length `n`
(no-op when `s` is already at least that long). -/
def padEnd (s : Str) (n : ℕ) : Str := s ++ List.replicate (n - s.length) ' '

/-- Result record of `computeHunkWithLineNumbers`. -/
structure AnnotResult where
  formattedHunk : List Str
  newLines : LineMap
  oldLines : LineMap
deriving DecidableEq, Repr

/-- `GitlabService.computeHunkWithLineNumbers(hunk)`: walk the body lines
(`hunkLines.slice(1)`) accumulating labels and tables, then render the header
line unchanged followed by each body line prefixed with its label padded to
`maxHeadLength` plus a single space. -/
def computeHunkWithLineNumbers (h : Hunk) : AnnotResult :=
  let st := annotRun (h.hunkLines.drop 1) h.oldStart h.newStart
  { formattedHunk :=
      h.hunkLines.headD [] ::
        st.temp.map (fun p => padEnd p.1 st.maxHeadLength ++ ' ' :: p.2)
    newLines := st.newLines
    oldLines := st.oldLines }

/-- Specification recursion for the old-side table: removed and context lines
are recorded at the running old counter which then advances; added lines
leave the old side untouched. -/
def oldTableSpec : List Str → ℕ → LineMap
  | [], _ => []
  | l :: ls, o =>
    if isRemoved l then (o, l) :: oldTableSpec ls (o + 1)
    else if isAdded l then oldTableSpec ls o
    else (o, l) :: oldTableSpec ls (o + 1)

/-- Specification recursion for the new-side table: added and context lines
are recorded at the running new counter which then advances; removed lines
leave the new side untouched. -/
def newTableSpec : List Str → ℕ → LineMap
  | [], _ => []
  | l :: ls, n =>
    if isRemoved l then newTableSpec ls n
    else (n, l) :: newTableSpec ls (n + 1)

/-- Number of body lines that consume the old counter (removed or context). -/
def oldCount : List Str → ℕ
  | [] => 0
  | l :: ls =>
    if isRemoved l then oldCount ls + 1
    else if isAdded l then oldCount ls
    else oldCount ls + 1

/-- Number of body lines that consume the new counter (added or context). -/
def newCount : List Str → ℕ
  | [] => 0
  | l :: ls =>
    if isRemoved l then newCount ls
    else newCount ls + 1

/-- Specification recursion for the head label of each body line, threading
both counters. -/
def tempSpec : List Str → ℕ → ℕ → List (Str × Str)
  | [], _, _ => []
  | l :: ls, o, n =>
    if isRemoved l then
      ("(".data ++ natToStr o ++ ", )".data, l) :: tempSpec ls (o + 1) n
    else if isAdded l then
      ("( , ".data ++ natToStr n ++ ")".data, l) :: tempSpec ls o (n + 1)
    else
      ("(".data ++ natToStr o ++ ", ".data ++ natToStr n ++ ")".data, l)
        :: tempSpec ls (o + 1) (n + 1)

/-- The maximum head-label length over a `temp` list (0 when empty). -/
def maxHeadSpec (ts : List (Str × Str)) : ℕ :=
  ts.foldl (fun m p => max m p.1.length) 0

/-- The loop of `splitIntoBatches`, structurally recursive on fuel: each
iteration pushes `items.slice(i, i + B)` and advances by `B`.  The source's
`for (let i = 0; i < items.length; i += batchSize)` terminates exactly when
`batchSize > 0`; `items.length` steps of fuel suffice in that case. -/
def splitBatchesFuel {α : Type} : ℕ → List α → ℕ → List (List α)
  | 0, _, _ => []
  | _ + 1, [], _ => []
  | fuel + 1, x :: xs, B => (x :: xs).take B :: splitBatchesFuel fuel ((x :: xs).drop B) B

/-- `AiReviewService.splitIntoBatches(items, batchSize)`. -/
def splitIntoBatches {α : Type} (items : List α) (B : ℕ) : List (List α) :=
  splitBatchesFuel items.length items B

/-- The `FileReview` interface (per-file review entry). -/
inductive Severity | low | medium | high
deriving DecidableEq, Repr

/-- One file's review entry, as in the `FileReview` interface. -/
structure FileReview where
  filePath : Str
  comments : List Str
  severity : Option Severity
deriving DecidableEq, Repr

/-- The `AIReviewResult` interface.  `score?: number` is optional in the
source, hence `Option ℚ`; every score the reviewer path actually produces is
a finite rational. -/
structure AIReviewResult where
  score : Option ℚ
  summary : Str
  fileReviews : List FileReview
deriving DecidableEq, Repr

/-- JS `Math.round` on a finite number: round half toward positive infinity. -/
def jsRound (q : ℚ) : ℤ := ⌊q + 1 / 2⌋

/-- `AiReviewService.mergeReviewResults(results)`: sentinel for zero results,
pass-through for one, otherwise average the scores (`r.score || 0` reads a
missing score as 0), round to one decimal, flatten the file reviews, and join
the truthy (nonempty) summaries under one fixed label. -/
def mergeReviewResults (results : List AIReviewResult) : AIReviewResult :=
  if results.length = 0 then
    ⟨some 0, "无审查结果".data, []⟩
  else if results.length = 1 then
    results.headD ⟨none, [], []⟩
  else
    let avgScore : ℚ :=
      (results.map (fun r => r.score.getD 0)).sum / results.length
    let allFileReviews := (results.map (fun r => r.fileReviews)).flatten
    let summaries := (results.map (fun r => r.summary)).filter (fun s => s ≠ [])
    let mergedSummary := "综合审查结果：\n".data ++ List.intercalate "\n\n".data summaries
    ⟨some ((jsRound (avgScore * 10) : ℚ) / 10), mergedSummary, allFileReviews⟩

/-- The fields of `ConfigService` that `validate()` reads, plus the review
batching limits (`parseInt` of the corresponding environment variables, which
may be nonpositive, hence `ℤ`). -/
structure AppConfig where
  aiServiceUrl : Str
  gitlabBaseUrl : Str
  gitlabWebhookToken : Str
  maxFilesPerReview : ℤ
  maxDiffLinesPerFile : ℤ
deriving DecidableEq, Repr

/-- `ConfigService.validate()`: collects an error message for each missing
(empty, i.e. falsy) required string and throws the joined messages when any
were collected; `some msg` models the thrown error, `none` a silent return. -/
def validate (c : AppConfig) : Option Str :=
  let errors : List Str :=
    (if c.aiServiceUrl = [] then ["AI_SERVICE_URL is required".data] else [])
      ++ (if c.gitlabBaseUrl = []
          then ["GITLAB_BASE_URL is required (e.g. https://gitlab.com)".data] else [])
      ++ (if c.gitlabWebhookToken = [] then ["GITLAB_WEBHOOK_TOKEN is required".data] else [])
  if 0 < errors.length
  then some ("Configuration validation failed:\n".data ++ List.intercalate "\n".data errors)
  else none

/-- A JS number as it can reach `normalizeScore` via `Number(parsed.score)`:
NaN, an infinity, or a finite value. -/
inductive JsNum
  | nan
  | posInf
  | negInf
  | num (q : ℚ)
deriving DecidableEq, Repr

/-- JS `Math.round` on a general number (NaN and infinities pass through). -/
def jsMathRound : JsNum → JsNum
  | .num q => .num (jsRound q : ℚ)
  | x => x

/-- JS `Math.min` on two numbers. -/
def jsMin : JsNum → JsNum → JsNum
  | .nan, _ => .nan
  | _, .nan => .nan
  | .negInf, _ => .negInf
  | _, .negInf => .negInf
  | .posInf, b => b
  | a, .posInf => a
  | .num a, .num b => .num (min a b)

/-- JS `Math.max` on two numbers. -/
def jsMax : JsNum → JsNum → JsNum
  | .nan, _ => .nan
  | _, .nan => .nan
  | .posInf, _ => .posInf
  | _, .posInf => .posInf
  | .negInf, b => b
  | a, .negInf => a
  | .num a, .num b => .num (max a b)

/-- `AiReviewService.normalizeScore(score)`: `Number(score)` is the given
`JsNum`; NaN becomes 7, otherwise `Math.max(1, Math.min(10, Math.round(x)))`. -/
def normalizeScore (score : JsNum) : JsNum :=
  if score = .nan then .num 7
  else jsMax (.num 1) (jsMin (.num 10) (jsMathRound score))

/-- Score component of `AiReviewService.parseAIResponse(response, diffResult)`:
`none` models the catch branch (the response was not parseable as JSON after
optional extraction from a markdown code fence), which returns the fixed
score 7; `some s` models a successful `JSON.parse` whose `score` field
converts to the JS number `s` (absent fields convert to NaN). -/
def parseAIResponseScore : Option JsNum → JsNum
  | none => .num 7
  | some s => normalizeScore s

/-! ### Helper lemmas: the annotation fold -/

theorem lookup_eq_none_of_keys_lt (m : LineMap) (k : ℕ)
    (h : ∀ p ∈ m, p.1 < k) : m.lookup k = none := by
  induction m with
  | nil => rfl
  | cons a m ih =>
    have ha : a.1 < k := h a (by simp)
    have hne : (k == a.1) = false := by
      simp only [beq_eq_false_iff_ne, ne_eq]
      omega
    obtain ⟨a1, a2⟩ := a
    simp only [List.lookup] at *
    rw [hne]
    exact ih (fun p hp => h p (by simp [hp]))

theorem mapSet_append (m : LineMap) (k : ℕ) (v : Str)
    (h : ∀ p ∈ m, p.1 < k) : mapSet m k v = m ++ [(k, v)] := by
  rw [mapSet, lookup_eq_none_of_keys_lt m k h]
  simp

theorem annotFold_spec (body : List Str) :
    ∀ s : AnnotState,
      (∀ p ∈ s.oldLines, p.1 < s.oldLineNumber) →
      (∀ p ∈ s.newLines, p.1 < s.newLineNumber) →
      body.foldl annotStep s =
        ⟨s.temp ++ tempSpec body s.oldLineNumber s.newLineNumber,
         (tempSpec body s.oldLineNumber s.newLineNumber).foldl
           (fun m p => max m p.1.length) s.maxHeadLength,
         s.oldLines ++ oldTableSpec body s.oldLineNumber,
         s.newLines ++ newTableSpec body s.newLineNumber,
         s.oldLineNumber + oldCount body,
         s.newLineNumber + newCount body⟩ := by
  induction body with
  | nil =>
    intro s _ _
    simp [tempSpec, oldTableSpec, newTableSpec, oldCount, newCount]
  | cons l ls ih =>
    intro s ho hn
    rw [List.foldl_cons]
    by_cases hr : isRemoved l
    · have hstep : annotStep s l =
          { s with
            temp := s.temp ++ [("(".data ++ natToStr s.oldLineNumber ++ ", )".data, l)]
            oldLines := s.oldLines ++ [(s.oldLineNumber, l)]
            oldLineNumber := s.oldLineNumber + 1
            maxHeadLength := max s.maxHeadLength
              ("(".data ++ natToStr s.oldLineNumber ++ ", )".data).length } := by
        rw [annotStep, if_pos hr, mapSet_append _ _ _ ho]
      rw [hstep, ih]
      · simp only [tempSpec, oldTableSpec, newTableSpec, oldCount, newCount, hr,
          if_pos, if_true, List.foldl_cons]
        simp only [AnnotState.mk.injEq]
        and_intros <;> first
          | omega
          | simp
      · intro p hp
        simp only [List.mem_append, List.mem_singleton] at hp
        rcases hp with hp | hp
        · have := ho p hp; simp; omega
        · simp [hp]
      · intro p hp
        have := hn p hp
        simpa using this
    · by_cases ha : isAdded l
      · have hstep : annotStep s l =
            { s with
              temp := s.temp ++ [("( , ".data ++ natToStr s.newLineNumber ++ ")".data, l)]
              newLines := s.newLines ++ [(s.newLineNumber, l)]
              newLineNumber := s.newLineNumber + 1
              maxHeadLength := max s.maxHeadLength
                ("( , ".data ++ natToStr s.newLineNumber ++ ")".data).length } := by
          rw [annotStep, if_neg (by simp [hr]), if_pos ha, mapSet_append _ _ _ hn]
        rw [hstep, ih]
        · simp only [tempSpec, oldTableSpec, newTableSpec, oldCount, newCount, hr, ha,
            if_neg, if_pos, Bool.false_eq_true, if_false, if_true, List.foldl_cons]
          simp only [AnnotState.mk.injEq]
          and_intros <;> first
            | omega
            | simp
        · intro p hp
          have := ho p hp
          simpa using this
        · intro p hp
          simp only [List.mem_append, List.mem_singleton] at hp
          rcases hp with hp | hp
          · have := hn p hp; simp; omega
          · simp [hp]
      · have hstep : annotStep s l =
            { s with
              temp := s.temp ++ [("(".data ++ natToStr s.oldLineNumber ++ ", ".data
                        ++ natToStr s.newLineNumber ++ ")".data, l)]
              oldLines := s.oldLines ++ [(s.oldLineNumber, l)]
              newLines := s.newLines ++ [(s.newLineNumber, l)]
              oldLineNumber := s.oldLineNumber + 1
              newLineNumber := s.newLineNumber + 1
              maxHeadLength := max s.maxHeadLength
                ("(".data ++ natToStr s.oldLineNumber ++ ", ".data
                  ++ natToStr s.newLineNumber ++ ")".data).length } := by
          rw [annotStep, if_neg (by simp [hr]), if_neg (by simp [ha]),
            mapSet_append _ _ _ ho, mapSet_append _ _ _ hn]
        rw [hstep, ih]
        · simp only [tempSpec, oldTableSpec, newTableSpec, oldCount, newCount, hr, ha,
            Bool.false_eq_true, if_false, List.foldl_cons]
          simp only [AnnotState.mk.injEq]
          and_intros <;> first
            | omega
            | simp
        · intro p hp
          simp only [List.mem_append, List.mem_singleton] at hp
          rcases hp with hp | hp
          · have := ho p hp; simp; omega
          · simp [hp]
        · intro p hp
          simp only [List.mem_append, List.mem_singleton] at hp
          rcases hp with hp | hp
          · have := hn p hp; simp; omega
          · simp [hp]

theorem annotRun_eq (body : List Str) (o n : ℕ) :
    annotRun body o n =
      ⟨tempSpec body o n, maxHeadSpec (tempSpec body o n),
       oldTableSpec body o, newTableSpec body n,
       o + oldCount body, n + newCount body⟩ := by
  have h := annotFold_spec body ⟨[], 0, [], [], o, n⟩ (by simp) (by simp)
  simpa [annotRun, maxHeadSpec] using h

theorem tempSpec_length (body : List Str) : ∀ o n, (tempSpec body o n).length = body.length := by
  induction body with
  | nil => intro o n; rfl
  | cons l ls ih =>
    intro o n
    by_cases hr : isRemoved l
    · simp [tempSpec, hr, ih]
    · by_cases ha : isAdded l <;> simp [tempSpec, hr, ha, ih]

theorem tempSpec_snd (body : List Str) : ∀ o n, (tempSpec body o n).map Prod.snd = body := by
  induction body with
  | nil => intro o n; rfl
  | cons l ls ih =>
    intro o n
    by_cases hr : isRemoved l
    · simp [tempSpec, hr, ih]
    · by_cases ha : isAdded l <;> simp [tempSpec, hr, ha, ih]

theorem le_foldl_maxHead (ts : List (Str × Str)) :
    ∀ a : ℕ, a ≤ ts.foldl (fun m p => max m p.1.length) a := by
  induction ts with
  | nil => intro a; exact le_refl a
  | cons x ts ih =>
    intro a
    calc a ≤ max a x.1.length := le_max_left _ _
    _ ≤ ts.foldl (fun m p => max m p.1.length) (max a x.1.length) := ih _

theorem mem_headLen_le_maxHeadSpec (ts : List (Str × Str)) :
    ∀ (a : ℕ) (p : Str × Str), p ∈ ts →
      p.1.length ≤ ts.foldl (fun m p => max m p.1.length) a := by
  induction ts with
  | nil => intro a p hp; simp at hp
  | cons x ts ih =>
    intro a p hp
    rcases List.mem_cons.1 hp with h | h
    · subst h
      calc p.1.length ≤ max a p.1.length := le_max_right _ _
      _ ≤ ts.foldl (fun m p => max m p.1.length) (max a p.1.length) := le_foldl_maxHead ts _
    · exact ih _ p h

theorem padEnd_length_of_le {s : Str} {n : ℕ} (h : s.length ≤ n) :
    (padEnd s n).length = n := by
  simp only [padEnd, List.length_append, List.length_replicate]
  omega

/-! ### Helper lemmas: batch splitting -/

theorem splitBatchesFuel_nil {α : Type} (B : ℕ) :
    ∀ fuel, splitBatchesFuel fuel ([] : List α) B = [] := by
  intro fuel
  cases fuel <;> rfl

theorem splitBatchesFuel_flatten {α : Type} (B : ℕ) (hB : 0 < B) :
    ∀ (fuel : ℕ) (items : List α), items.length ≤ fuel →
      (splitBatchesFuel fuel items B).flatten = items := by
  intro fuel
  induction fuel with
  | zero =>
    intro items hlen
    rw [List.length_eq_zero.1 (Nat.le_zero.1 hlen)]
    rfl
  | succ fuel ih =>
    intro items hlen
    cases items with
    | nil => rfl
    | cons x xs =>
      rw [splitBatchesFuel, List.flatten_cons, ih]
      · exact List.take_append_drop B (x :: xs)
      · simp only [List.length_drop, List.length_cons] at *
        omega

theorem splitBatchesFuel_length {α : Type} (B : ℕ) (hB : 0 < B) :
    ∀ (fuel : ℕ) (items : List α), items.length ≤ fuel →
      (splitBatchesFuel fuel items B).length = (items.length + B - 1) / B := by
  intro fuel
  induction fuel with
  | zero =>
    intro items hlen
    rw [List.length_eq_zero.1 (Nat.le_zero.1 hlen)]
    simp [splitBatchesFuel, Nat.div_eq_of_lt (by omega : B - 1 < B)]
  | succ fuel ih =>
    intro items hlen
    cases items with
    | nil => simp [splitBatchesFuel, Nat.div_eq_of_lt (by omega : B - 1 < B)]
    | cons x xs =>
      rw [splitBatchesFuel, List.length_cons, ih]
      · simp only [List.length_drop, List.length_cons]
        rcases le_or_lt B (xs.length + 1) with hle | hlt
        · have hsplit : xs.length + 1 + B - 1 = (xs.length + 1 - B + B - 1) + B := by omega
          rw [hsplit, Nat.add_div_right _ hB]
        · have hzero : xs.length + 1 - B + B - 1 < B := by omega
          rw [Nat.div_eq_of_lt hzero]
          have h1 : 1 * B ≤ xs.length + 1 + B - 1 := by omega
          have h2 : xs.length + 1 + B - 1 < (1 + 1) * B := by omega
          rw [Nat.div_eq_of_lt_le h1 h2]
      · simp only [List.length_drop, List.length_cons] at *
        omega

theorem splitBatchesFuel_sizes {α : Type} (B : ℕ) (hB : 0 < B) :
    ∀ (fuel : ℕ) (items : List α), items.length ≤ fuel →
      ∀ b ∈ splitBatchesFuel fuel items B, 1 ≤ b.length ∧ b.length ≤ B := by
  intro fuel
  induction fuel with
  | zero =>
    intro items hlen b hb
    rw [List.length_eq_zero.1 (Nat.le_zero.1 hlen)] at hb
    simp [splitBatchesFuel] at hb
  | succ fuel ih =>
    intro items hlen b hb
    cases items with
    | nil => simp [splitBatchesFuel] at hb
    | cons x xs =>
      rw [splitBatchesFuel] at hb
      rcases List.mem_cons.1 hb with h | h
      · subst h
        simp only [List.length_take, List.length_cons]
        omega
      · refine ih _ ?_ b h
        simp only [List.length_drop, List.length_cons] at *
        omega

theorem splitBatchesFuel_dropLast {α : Type} (B : ℕ) (hB : 0 < B) :
    ∀ (fuel : ℕ) (items : List α), items.length ≤ fuel →
      ∀ b ∈ (splitBatchesFuel fuel items B).dropLast, b.length = B := by
  intro fuel
  induction fuel with
  | zero =>
    intro items hlen b hb
    rw [List.length_eq_zero.1 (Nat.le_zero.1 hlen)] at hb
    simp [splitBatchesFuel] at hb
  | succ fuel ih =>
    intro items hlen b hb
    cases items with
    | nil => simp [splitBatchesFuel] at hb
    | cons x xs =>
      rw [splitBatchesFuel] at hb
      rcases hrec : splitBatchesFuel fuel ((x :: xs).drop B) B with _ | ⟨r, rs⟩
      · rw [hrec] at hb
        simp at hb
      · rw [hrec, List.dropLast_cons₂] at hb
        rcases List.mem_cons.1 hb with h | h
        · subst h
          have hdropne : (x :: xs).drop B ≠ [] := by
            intro hcon
            rw [hcon, splitBatchesFuel_nil] at hrec
            exact List.noConfusion hrec
          have hlt : B < xs.length + 1 := by
            by_contra hcon
            exact hdropne (List.drop_eq_nil_of_le (by simpa using not_lt.1 hcon))
          simp only [List.length_take, List.length_cons]
          omega
        · rw [← hrec] at h
          refine ih _ ?_ b h
          simp only [List.length_drop, List.length_cons] at *
          omega

/-! ### Helper lemmas: hunk splitting -/

theorem foldl_splitStep_no_header :
    ∀ (ls : List Str), (∀ l ∈ ls, beginsWith "@@".data l = false) →
      ∀ st : List Hunk × Hunk,
        ls.foldl splitStep st =
          (st.1, ⟨st.2.oldStart, st.2.newStart, st.2.hunkLines ++ ls⟩) := by
  intro ls
  induction ls with
  | nil => intro _ st; simp
  | cons l ls ih =>
    intro hno st
    have hl : beginsWith "@@".data l = false := hno l (by simp)
    rw [List.foldl_cons]
    have hstep : splitStep st l = (st.1, { st.2 with hunkLines := st.2.hunkLines ++ [l] }) := by
      rw [splitStep, if_neg (by simp [hl])]
    rw [hstep, ih (fun x hx => hno x (by simp [hx]))]
    simp

theorem foldl_splitStep_hunks_extends :
    ∀ (ls : List Str) (st : List Hunk × Hunk),
      ∃ tl, (ls.foldl splitStep st).1 = st.1 ++ tl := by
  intro ls
  induction ls with
  | nil => intro st; exact ⟨[], by simp⟩
  | cons l ls ih =>
    intro st
    rw [List.foldl_cons]
    obtain ⟨tl, htl⟩ := ih (splitStep st l)
    rw [htl]
    by_cases hh : beginsWith "@@".data l
    · by_cases hemp : st.2.hunkLines = []
      · exact ⟨tl, by rw [splitStep, if_pos hh, if_pos hemp]⟩
      · exact ⟨st.2 :: tl, by rw [splitStep, if_pos hh, if_neg hemp]; simp⟩
    · exact ⟨tl, by rw [splitStep, if_neg hh]⟩

theorem foldl_splitStep_ne_nil :
    ∀ (ls : List Str) (st : List Hunk × Hunk),
      (∀ h ∈ st.1, h.hunkLines ≠ []) →
      ∀ h ∈ (ls.foldl splitStep st).1, h.hunkLines ≠ [] := by
  intro ls
  induction ls with
  | nil => intro st hst; exact hst
  | cons l ls ih =>
    intro st hst
    rw [List.foldl_cons]
    refine ih (splitStep st l) ?_
    intro h hmem
    by_cases hh : beginsWith "@@".data l
    · by_cases hemp : st.2.hunkLines = []
      · have h1 : (splitStep st l).1 = st.1 := by simp [splitStep, hh, hemp]
        rw [h1] at hmem
        exact hst h hmem
      · have h1 : (splitStep st l).1 = st.1 ++ [st.2] := by simp [splitStep, hh, hemp]
        rw [h1] at hmem
        simp only [List.mem_append, List.mem_singleton] at hmem
        rcases hmem with hm | hm
        · exact hst h hm
        · rw [hm]; exact hemp
    · have h1 : (splitStep st l).1 = st.1 := by simp [splitStep, hh]
      rw [h1] at hmem
      exact hst h hmem

/-! ### Claim theorems -/

/-- C1: for every hunk body walked by `computeHunkWithLineNumbers` starting
from the declared `oldStart`/`newStart`, a `-` line is recorded in the old
table at the current old counter which then advances by 1, a `+` line is
recorded in the new table at the current new counter which then advances by
1, and any other line is recorded in both tables with both counters
advancing; in particular the hunk `@@ -1,3 +1,4 @@` with body
`[" context", "-old", "+new1", "+new2"]` yields old table
`{1: " context", 2: "-old"}`, new table
`{1: " context", 2: "+new1", 3: "+new2"}`, final old counter 3 and final
new counter 4. -/
theorem c1_annotator_line_numbering :
    (∀ (body : List Str) (o n : ℕ),
        (annotRun body o n).oldLines = oldTableSpec body o ∧
        (annotRun body o n).newLines = newTableSpec body n ∧
        (annotRun body o n).oldLineNumber = o + oldCount body ∧
        (annotRun body o n).newLineNumber = n + newCount body) ∧
    splitHunk "@@ -1,3 +1,4 @@\n context\n-old\n+new1\n+new2".data =
      [⟨1, 1, ["@@ -1,3 +1,4 @@".data, " context".data, "-old".data,
               "+new1".data, "+new2".data]⟩] ∧
    (computeHunkWithLineNumbers ⟨1, 1, ["@@ -1,3 +1,4 @@".data, " context".data,
        "-old".data, "+new1".data, "+new2".data]⟩).oldLines =
      [(1, " context".data), (2, "-old".data)] ∧
    (computeHunkWithLineNumbers ⟨1, 1, ["@@ -1,3 +1,4 @@".data, " context".data,
        "-old".data, "+new1".data, "+new2".data]⟩).newLines =
      [(1, " context".data), (2, "+new1".data), (3, "+new2".data)] ∧
    (annotRun [" context".data, "-old".data, "+new1".data, "+new2".data] 1 1).oldLineNumber
      = 3 ∧
    (annotRun [" context".data, "-old".data, "+new1".data, "+new2".data] 1 1).newLineNumber
      = 4 := by
  refine ⟨fun body o n => ?_, by decide, by decide, by decide, by decide, by decide⟩
  rw [annotRun_eq]
  exact ⟨rfl, rfl, rfl, rfl⟩

/-- C5: the rendered output of `computeHunkWithLineNumbers` is the original
header line unchanged followed by one line per body line, each consisting of
that line's head label left-justified with spaces to the maximum label length
of the hunk, one separating space, and the original body line text; hence the
rendered line count is the body line count plus one. -/
theorem c5_rendered_hunk_shape (h : Hunk) :
    (computeHunkWithLineNumbers h).formattedHunk =
      h.hunkLines.headD [] ::
        (tempSpec (h.hunkLines.drop 1) h.oldStart h.newStart).map
          (fun p =>
            padEnd p.1 (maxHeadSpec (tempSpec (h.hunkLines.drop 1) h.oldStart h.newStart))
              ++ ' ' :: p.2) ∧
    (tempSpec (h.hunkLines.drop 1) h.oldStart h.newStart).map Prod.snd =
      h.hunkLines.drop 1 ∧
    (tempSpec (h.hunkLines.drop 1) h.oldStart h.newStart).map
        (fun p =>
          (padEnd p.1 (maxHeadSpec (tempSpec (h.hunkLines.drop 1) h.oldStart h.newStart))).length)
      = List.replicate (h.hunkLines.drop 1).length
          (maxHeadSpec (tempSpec (h.hunkLines.drop 1) h.oldStart h.newStart)) ∧
    (computeHunkWithLineNumbers h).formattedHunk.length = (h.hunkLines.drop 1).length + 1 := by
  refine ⟨?_, tempSpec_snd _ _ _, ?_, ?_⟩
  · rw [computeHunkWithLineNumbers, annotRun_eq]
  · rw [List.eq_replicate_iff]
    constructor
    · rw [List.length_map, tempSpec_length]
    · intro b hb
      obtain ⟨p, hp, hpb⟩ := List.mem_map.1 hb
      rw [← hpb]
      exact padEnd_length_of_le (mem_headLen_le_maxHeadSpec _ 0 p hp)
  · rw [computeHunkWithLineNumbers, annotRun_eq]
    simp [tempSpec_length]

/-- C2 (counterexample): the claim that preamble lines are discarded and that
a header-less diff yields no hunks is false: `splitHunk "hello"` emits one
hunk even though no line matches (or even starts with) a hunk header, and for
a diff with `---`/`+++` preamble markers the preamble lines are emitted as a
leading hunk with `oldStart = newStart = 0` rather than discarded. -/
theorem c2_counterexample :
    splitHunk "hello".data ≠ [] ∧
    splitHunk "--- a\n+++ b\n@@ -1 +1 @@\nx".data =
      [⟨0, 0, ["--- a".data, "+++ b".data]⟩,
       ⟨1, 1, ["@@ -1 +1 @@".data, "x".data]⟩] := by
  exact ⟨by decide, by decide⟩

/-- C2 (amended): lines preceding the first `@@` line are not discarded: they
are emitted as an initial hunk with `oldStart = newStart = 0`; and a diff
whose lines never start with `@@` produces the single hunk containing all its
lines (so never an empty hunk sequence). -/
theorem c2_amended_preamble_emitted :
    (∀ lines : List Str, lines ≠ [] →
        (∀ l ∈ lines, beginsWith "@@".data l = false) →
        splitHunkLines lines = [⟨0, 0, lines⟩]) ∧
    (∀ (pre : List Str) (hdr : Str) (rest : List Str), pre ≠ [] →
        (∀ l ∈ pre, beginsWith "@@".data l = false) →
        beginsWith "@@".data hdr = true →
        ∃ tl, splitHunkLines (pre ++ hdr :: rest) = ⟨0, 0, pre⟩ :: tl) := by
  constructor
  · intro lines hne hno
    rw [splitHunkLines]
    rw [foldl_splitStep_no_header lines hno ([], ⟨0, 0, []⟩)]
    simp [hne]
  · intro pre hdr rest hne hno hh
    rw [splitHunkLines, List.foldl_append,
      foldl_splitStep_no_header pre hno ([], ⟨0, 0, []⟩)]
    simp only [List.nil_append]
    rw [List.foldl_cons]
    have hstep1 : (splitStep (([] : List Hunk), (⟨0, 0, pre⟩ : Hunk)) hdr).1
        = [⟨0, 0, pre⟩] := by
      simp [splitStep, hh, hne]
    obtain ⟨tl, htl⟩ :=
      foldl_splitStep_hunks_extends rest (splitStep ([], ⟨0, 0, pre⟩) hdr)
    refine ⟨tl ++ (if (List.foldl splitStep (splitStep ([], ⟨0, 0, pre⟩) hdr) rest).2.hunkLines
          = [] then []
        else [(List.foldl splitStep (splitStep ([], ⟨0, 0, pre⟩) hdr) rest).2]), ?_⟩
    rw [htl, hstep1]
    simp

/-- C2 (amended) witness at concrete inputs. -/
theorem c2_amended_witness :
    ((["hello".data] : List Str) ≠ [] ∧
      (∀ l ∈ (["hello".data] : List Str), beginsWith "@@".data l = false) ∧
      splitHunkLines ["hello".data] = [⟨0, 0, ["hello".data]⟩]) ∧
    ((["--- a".data] : List Str) ≠ [] ∧
      (∀ l ∈ (["--- a".data] : List Str), beginsWith "@@".data l = false) ∧
      beginsWith "@@".data "@@ -1 +1 @@".data = true ∧
      ∃ tl, splitHunkLines (["--- a".data] ++ "@@ -1 +1 @@".data :: ["x".data]) =
          ⟨0, 0, ["--- a".data]⟩ :: tl) :=
  ⟨⟨by decide, by decide,
      c2_amended_preamble_emitted.1 ["hello".data] (by decide) (by decide)⟩,
   ⟨by decide, by decide, by decide,
      c2_amended_preamble_emitted.2 ["--- a".data] "@@ -1 +1 @@".data ["x".data]
        (by decide) (by decide) (by decide)⟩⟩

/-- C6 (counterexample): a hunk whose body (lines after the header) is empty
is not dropped: a diff consisting of just a header line is emitted as a hunk
whose `bodyLines` is empty. -/
theorem c6_counterexample :
    splitHunk "@@ -1 +1 @@".data = [⟨1, 1, ["@@ -1 +1 @@".data]⟩] ∧
    bodyLines ⟨1, 1, ["@@ -1 +1 @@".data]⟩ = [] := by
  exact ⟨by decide, rfl⟩

/-- C6 (amended): every emitted hunk has a nonempty `hunkLines` (the list
including the header line when one exists); hunks with no lines at all are
dropped by the length checks in `splitHunk`. -/
theorem c6_amended_hunkLines_ne_nil (diff : Str) (h : Hunk)
    (hmem : h ∈ splitHunk diff) : h.hunkLines ≠ [] := by
  rw [splitHunk, splitHunkLines] at hmem
  simp only [List.mem_append] at hmem
  rcases hmem with hm | hm
  · exact foldl_splitStep_ne_nil (splitLines diff) ([], ⟨0, 0, []⟩) (by simp) h hm
  · by_cases hemp : ((splitLines diff).foldl splitStep ([], ⟨0, 0, []⟩)).2.hunkLines = []
    · rw [if_pos hemp] at hm
      simp at hm
    · rw [if_neg hemp] at hm
      rw [List.mem_singleton.1 hm]
      exact hemp

/-- C6 (amended) witness at a concrete input. -/
theorem c6_amended_witness :
    (⟨0, 0, ["hello".data]⟩ : Hunk) ∈ splitHunk "hello".data ∧
    (⟨0, 0, ["hello".data]⟩ : Hunk).hunkLines ≠ [] :=
  ⟨by decide, c6_amended_hunkLines_ne_nil "hello".data _ (by decide)⟩

/-- C7: a hunk header line that starts with `@@` but does not match the
numeric header regex leaves `oldStart`/`newStart` at their default 0 and
parsing continues; a single context body line after such a header is recorded
at key 0 in both the old and new tables. -/
theorem c7_malformed_header_defaults (hline cline : Str)
    (hh : beginsWith "@@".data hline = true)
    (hnm : matchHunkHeader hline = none)
    (hc : beginsWith "@@".data cline = false)
    (hcr : isRemoved cline = false)
    (hca : isAdded cline = false) :
    splitHunkLines [hline, cline] = [⟨0, 0, [hline, cline]⟩] ∧
    (computeHunkWithLineNumbers ⟨0, 0, [hline, cline]⟩).oldLines = [(0, cline)] ∧
    (computeHunkWithLineNumbers ⟨0, 0, [hline, cline]⟩).newLines = [(0, cline)] := by
  refine ⟨?_, ?_, ?_⟩
  · rw [splitHunkLines]
    simp [splitStep, hh, hnm, hc]
  · rw [computeHunkWithLineNumbers, annotRun_eq]
    simp [oldTableSpec, hcr, hca]
  · rw [computeHunkWithLineNumbers, annotRun_eq]
    simp [newTableSpec, hcr, hca]

/-- C7 witness: the malformed header `@@ garbage @@` followed by the context
line ` x`. -/
theorem c7_malformed_header_witness :
    (beginsWith "@@".data "@@ garbage @@".data = true ∧
      matchHunkHeader "@@ garbage @@".data = none ∧
      beginsWith "@@".data " x".data = false ∧
      isRemoved " x".data = false ∧
      isAdded " x".data = false) ∧
    splitHunkLines ["@@ garbage @@".data, " x".data] =
      [⟨0, 0, ["@@ garbage @@".data, " x".data]⟩] ∧
    (computeHunkWithLineNumbers ⟨0, 0, ["@@ garbage @@".data, " x".data]⟩).oldLines =
      [(0, " x".data)] ∧
    (computeHunkWithLineNumbers ⟨0, 0, ["@@ garbage @@".data, " x".data]⟩).newLines =
      [(0, " x".data)] :=
  ⟨⟨by decide, by decide, by decide, by decide, by decide⟩,
    c7_malformed_header_defaults "@@ garbage @@".data " x".data
      (by decide) (by decide) (by decide) (by decide) (by decide)⟩

theorem jsRound_intCast (z : ℤ) : jsRound (z : ℚ) = z := by
  rw [jsRound, Int.floor_eq_iff]
  constructor
  · linarith
  · linarith

/-- C3: for every list and every batch size `B > 0`, `splitIntoBatches`
produces exactly `ceil(L/B)` batches, each a nonempty contiguous slice of at
most `B` elements, all of size exactly `B` except possibly the last, and
concatenating the batches in order reproduces the original list. -/
theorem c3_splitIntoBatches_partition {α : Type} (items : List α) (B : ℕ) (hB : 0 < B) :
    (splitIntoBatches items B).length = (items.length + B - 1) / B ∧
    (((splitIntoBatches items B).length : ℤ) = ⌈(items.length : ℚ) / (B : ℚ)⌉) ∧
    (splitIntoBatches items B).flatten = items ∧
    (∀ b ∈ splitIntoBatches items B, 1 ≤ b.length ∧ b.length ≤ B) ∧
    (∀ b ∈ (splitIntoBatches items B).dropLast, b.length = B) := by
  have hlen : items.length ≤ items.length := le_refl _
  have hlength := splitBatchesFuel_length B hB items.length items hlen
  refine ⟨hlength, ?_, splitBatchesFuel_flatten B hB items.length items hlen,
    splitBatchesFuel_sizes B hB items.length items hlen,
    splitBatchesFuel_dropLast B hB items.length items hlen⟩
  show ((splitBatchesFuel items.length items B).length : ℤ) = _
  rw [hlength]
  have hdm := Nat.div_add_mod (items.length + B - 1) B
  have hmod : (items.length + B - 1) % B < B := Nat.mod_lt _ hB
  set m := (items.length + B - 1) / B with hmdef
  have h1 : B * m + 1 ≤ items.length + B := by omega
  have h2 : items.length ≤ B * m := by omega
  have hBQ : (0 : ℚ) < (B : ℚ) := by exact_mod_cast hB
  have h1Q : (B : ℚ) * (m : ℚ) + 1 ≤ (items.length : ℚ) + B := by exact_mod_cast h1
  have h2Q : (items.length : ℚ) ≤ (B : ℚ) * (m : ℚ) := by exact_mod_cast h2
  rw [eq_comm, Int.ceil_eq_iff]
  constructor
  · rw [lt_div_iff₀ hBQ]
    push_cast
    nlinarith
  · rw [div_le_iff₀ hBQ]
    push_cast
    nlinarith

/-- C3 witness at the concrete list `[1,2,3,4,5]` with batch size 2. -/
theorem c3_splitIntoBatches_witness :
    0 < 2 ∧
    ((splitIntoBatches [1, 2, 3, 4, 5] 2).length =
        (([1, 2, 3, 4, 5] : List ℕ).length + 2 - 1) / 2 ∧
      (((splitIntoBatches [1, 2, 3, 4, 5] 2).length : ℤ) =
        ⌈(([1, 2, 3, 4, 5] : List ℕ).length : ℚ) / (2 : ℚ)⌉) ∧
      (splitIntoBatches [1, 2, 3, 4, 5] 2).flatten = [1, 2, 3, 4, 5] ∧
      (∀ b ∈ splitIntoBatches [1, 2, 3, 4, 5] 2, 1 ≤ b.length ∧ b.length ≤ 2) ∧
      (∀ b ∈ (splitIntoBatches [1, 2, 3, 4, 5] 2).dropLast, b.length = 2)) :=
  ⟨by decide, c3_splitIntoBatches_partition [1, 2, 3, 4, 5] 2 (by decide)⟩

/-- C4: `mergeReviewResults` returns the score-0 sentinel with empty findings
for zero results, returns a single result unchanged, and for two or more
results returns the mean of the scores (a missing score reads as 0) rounded
to one decimal together with the concatenation of all file findings in batch
order; scores 6 and 9 merge to 7.5. -/
theorem c4_mergeReviewResults_cases :
    mergeReviewResults [] = ⟨some 0, "无审查结果".data, []⟩ ∧
    (∀ r : AIReviewResult, mergeReviewResults [r] = r) ∧
    (∀ rs : List AIReviewResult, 2 ≤ rs.length →
        (mergeReviewResults rs).score =
          some ((jsRound (((rs.map (fun r => r.score.getD 0)).sum / (rs.length : ℚ)) * 10) : ℚ)
            / 10) ∧
        (mergeReviewResults rs).fileReviews = (rs.map (fun r => r.fileReviews)).flatten) ∧
    (∀ (s1 s2 : Str) (f1 f2 : List FileReview),
        (mergeReviewResults [⟨some 6, s1, f1⟩, ⟨some 9, s2, f2⟩]).score = some (7.5 : ℚ)) := by
  refine ⟨rfl, ?_, ?_, ?_⟩
  · intro r
    simp [mergeReviewResults]
  · intro rs h2
    rw [mergeReviewResults, if_neg (by omega), if_neg (by omega)]
    exact ⟨rfl, rfl⟩
  · intro s1 s2 f1 f2
    rw [mergeReviewResults, if_neg (by simp), if_neg (by simp)]
    have havg : ((([⟨some 6, s1, f1⟩, ⟨some 9, s2, f2⟩] : List AIReviewResult).map
        (fun r => r.score.getD 0)).sum
          / (([⟨some 6, s1, f1⟩, ⟨some 9, s2, f2⟩] : List AIReviewResult).length : ℚ)) * 10
        = ((75 : ℤ) : ℚ) := by
      simp
      norm_num
    simp only [havg, jsRound_intCast]
    norm_num

/-- C4 witness at two concrete results with scores 6 and 9. -/
theorem c4_mergeReviewResults_witness :
    2 ≤ ([⟨some 6, "a".data, []⟩, ⟨some 9, "b".data, []⟩] : List AIReviewResult).length ∧
    ((mergeReviewResults [⟨some 6, "a".data, []⟩, ⟨some 9, "b".data, []⟩]).score =
        some ((jsRound (((([⟨some 6, "a".data, []⟩, ⟨some 9, "b".data, []⟩]
                : List AIReviewResult).map (fun r => r.score.getD 0)).sum
              / (([⟨some 6, "a".data, []⟩, ⟨some 9, "b".data, []⟩]
                : List AIReviewResult).length : ℚ)) * 10) : ℚ) / 10) ∧
      (mergeReviewResults [⟨some 6, "a".data, []⟩, ⟨some 9, "b".data, []⟩]).fileReviews =
        (([⟨some 6, "a".data, []⟩, ⟨some 9, "b".data, []⟩]
          : List AIReviewResult).map (fun r => r.fileReviews)).flatten) :=
  ⟨by decide,
    c4_mergeReviewResults_cases.2.2.1
      [⟨some 6, "a".data, []⟩, ⟨some 9, "b".data, []⟩] (by decide)⟩

/-- C8 (counterexample): the merged summary is not a labeled concatenation
attributable per batch: two different assignments of summary text to the two
batches produce the identical merged summary (attribution is lost), and an
empty partial summary is omitted entirely rather than represented. -/
theorem c8_counterexample :
    (mergeReviewResults
        [⟨some 7, "x\n\ny".data, []⟩, ⟨some 7, "z".data, []⟩]).summary =
      (mergeReviewResults
        [⟨some 7, "x".data, []⟩, ⟨some 7, "y\n\nz".data, []⟩]).summary ∧
    ([⟨some 7, "x\n\ny".data, []⟩, ⟨some 7, "z".data, []⟩]
        : List AIReviewResult).map (fun r => r.summary) ≠
      ([⟨some 7, "x".data, []⟩, ⟨some 7, "y\n\nz".data, []⟩]
        : List AIReviewResult).map (fun r => r.summary) ∧
    (mergeReviewResults [⟨some 7, [], []⟩, ⟨some 7, "ok".data, []⟩]).summary =
      "综合审查结果：\nok".data := by
  refine ⟨by decide, by decide, by decide⟩

/-- C8 (amended): for two or more results the merged summary is the single
fixed label `综合审查结果：` followed by a newline and the nonempty partial
summaries joined by blank lines, in batch order; empty summaries are dropped
and no per-batch label is attached. -/
theorem c8_amended_merged_summary (rs : List AIReviewResult) (h2 : 2 ≤ rs.length) :
    (mergeReviewResults rs).summary =
      "综合审查结果：\n".data ++
        List.intercalate "\n\n".data
          ((rs.map (fun r => r.summary)).filter (fun s => s ≠ [])) := by
  rw [mergeReviewResults, if_neg (by omega), if_neg (by omega)]

/-- C8 (amended) witness at two concrete results. -/
theorem c8_amended_witness :
    2 ≤ ([⟨some 6, "a".data, []⟩, ⟨some 9, "b".data, []⟩] : List AIReviewResult).length ∧
    (mergeReviewResults [⟨some 6, "a".data, []⟩, ⟨some 9, "b".data, []⟩]).summary =
      "综合审查结果：\n".data ++
        List.intercalate "\n\n".data
          ((([⟨some 6, "a".data, []⟩, ⟨some 9, "b".data, []⟩]
              : List AIReviewResult).map (fun r => r.summary)).filter (fun s => s ≠ [])) :=
  ⟨by decide,
    c8_amended_merged_summary [⟨some 6, "a".data, []⟩, ⟨some 9, "b".data, []⟩] (by decide)⟩

/-- C9: `ConfigService.validate` does not fail fast on a nonpositive
`maxFilesPerReview`: it never reads that field (first conjunct), and a
configuration with all three required strings present but
`maxFilesPerReview = 0` passes validation silently, contradicting the claim
that a nonpositive batch size is rejected at configuration validation time. -/
theorem c9_validate_ignores_batch_size :
    (∀ (c : AppConfig) (m : ℤ), validate { c with maxFilesPerReview := m } = validate c) ∧
    validate ⟨"http://ai.example".data, "https://gitlab.example".data,
      "token".data, 0, 500⟩ = none ∧
    (⟨"http://ai.example".data, "https://gitlab.example".data,
      "token".data, 0, 500⟩ : AppConfig).maxFilesPerReview ≤ 0 := by
  refine ⟨fun c m => rfl, by decide, by decide⟩

/-- C10: for every parse outcome, the score produced by the `parseAIResponse`
path is a defined finite integer between 1 and 10: the catch branch yields
the fixed score 7, a NaN score (non-numeric `parsed.score`) yields 7, and a
numeric score is rounded and clamped into `[1, 10]`. -/
theorem c10_parsed_score_in_range :
    parseAIResponseScore none = .num 7 ∧
    parseAIResponseScore (some .nan) = .num 7 ∧
    ∀ o : Option JsNum, ∃ k : ℤ,
      parseAIResponseScore o = .num (k : ℚ) ∧ 1 ≤ k ∧ k ≤ 10 := by
  refine ⟨rfl, rfl, ?_⟩
  intro o
  cases o with
  | none => exact ⟨7, by norm_num [parseAIResponseScore], by norm_num, by norm_num⟩
  | some s =>
    cases s with
    | nan =>
      refine ⟨7, ?_, by norm_num, by norm_num⟩
      show normalizeScore .nan = _
      rw [normalizeScore, if_pos rfl]
      norm_num
    | posInf =>
      refine ⟨10, ?_, by norm_num, by norm_num⟩
      show normalizeScore .posInf = _
      rw [normalizeScore, if_neg (by simp)]
      show JsNum.num (max 1 10) = _
      norm_num
    | negInf =>
      refine ⟨1, ?_, by norm_num, by norm_num⟩
      show normalizeScore .negInf = _
      rw [normalizeScore, if_neg (by simp)]
      rfl
    | num q =>
      refine ⟨max 1 (min 10 (jsRound q)), ?_, le_max_left _ _, ?_⟩
      · show normalizeScore (.num q) = _
        rw [normalizeScore, if_neg (by simp)]
        show JsNum.num (max 1 (min 10 ((jsRound q : ℤ) : ℚ))) = _
        push_cast
        rfl
      · exact max_le (by norm_num) (min_le_left _ _)
